import Mathlib

/-!
# Verification of the NamedTimers core (`src/main.py`)

A shallow embedding of the model layer of the NamedTimers application:
the `TimerState` dataclass and the `TimerManager` collection, together
with proofs of the specification claims about them.

Conventions of the embedding:
* Python `int` fields become `ℤ`; wall-clock timestamps (`time.time()`
  floats) become `ℚ`; Python `int(x)` conversion (truncation toward
  zero) is `pytrunc`.
* The Python `dict` `TimerManager.items` becomes an insertion-ordered
  association list `ItemMap` with dict semantics (`lookup`, `setItem`,
  `eraseKey`, `containsKey`).
* `time.time()` values consumed inside methods become explicit `now`
  parameters.
* Methods that mutate `self` become functions returning the new state;
  Qt signal emissions become `Bool` results (`true` = emitted once);
  a Python exception (`KeyError` from `dict.pop`) becomes `none` in an
  `Option` result.
* The theme colors returned by `color_for_remaining` (`green`, `orange`,
  `red`, `muted` entries of `THEME`) are represented by the abstract
  urgency bands `safe`, `warning`, `critical`, `muted`.
-/

/-- Python `str.strip()`: drop whitespace from both ends.
(In this Lean version `String` is a structure holding `data : List Char`.) -/
def pyStrip (s : String) : String :=
  ⟨((s.data.dropWhile Char.isWhitespace).reverse.dropWhile Char.isWhitespace).reverse⟩

/-- Python `int(x)` applied to a real number: truncation toward zero. -/
def pytrunc (q : ℚ) : ℤ :=
  if 0 ≤ q then ⌊q⌋ else ⌈q⌉

/-- The global duration constant of `src/main.py`: `BASE_DURATION_SEC = 40 * 60`. -/
def BASE_DURATION_SEC : ℤ := 40 * 60

/-- The urgency band encoded by the color that `color_for_remaining` returns:
`THEME["green"]` ↦ `safe`, `THEME["orange"]` ↦ `warning`,
`THEME["red"]` ↦ `critical`, `THEME["muted"]` ↦ `muted`. -/
inductive Band where
  | safe
  | warning
  | critical
  | muted
deriving DecidableEq

/-- The `TimerState` dataclass of `src/main.py`. -/
structure TimerState where
  name : String
  initial_duration_sec : ℤ
  remaining_sec : ℤ
  running : Bool
  last_wall_ts : ℚ
  age_group : String
  gender : String
deriving DecidableEq

namespace TimerState

/-- Embedding of `TimerState.clamp`: `self.remaining_sec = max(0, self.remaining_sec)`. -/
def clamp (st : TimerState) : TimerState :=
  { st with remaining_sec := max 0 st.remaining_sec }

/-- Embedding of `TimerState.is_finished`: `self.remaining_sec <= 0`. -/
def is_finished (st : TimerState) : Bool :=
  decide (st.remaining_sec ≤ 0)

/-- Embedding of `TimerState.color_for_remaining`, with theme colors abstracted to `Band`. -/
def color_for_remaining (st : TimerState) : Band :=
  let r := st.remaining_sec
  if r ≤ 0 then .muted
  else
    let first_cut := (2 * BASE_DURATION_SEC) / 3
    let second_cut := BASE_DURATION_SEC / 3
    if first_cut < r then .safe
    else if second_cut < r then .warning
    else .critical

/-- Embedding of `TimerState.tick_wall(now_ts)` as a pure state transformer. -/
def tick_wall (st : TimerState) (now_ts : ℚ) : TimerState :=
  if !st.running then
    { st with last_wall_ts := now_ts }
  else
    let elapsed := pytrunc (now_ts - st.last_wall_ts)
    if 0 < elapsed then
      let st' := clamp { st with remaining_sec := st.remaining_sec - elapsed }
      { st' with last_wall_ts := now_ts }
    else st

end TimerState

/-! ## Specification-side definitions (for refinement claims) -/

/-- Claim C1's classifier, written from the claim's words: thresholds taken
from the Timer's *own* `initialDurationSec` (integer division), finished
timers muted, boundary values in the lower band. -/
def colorBandOwnDuration (st : TimerState) : Band :=
  if st.is_finished then .muted
  else if 2 * st.initial_duration_sec / 3 < st.remaining_sec then .safe
  else if st.initial_duration_sec / 3 < st.remaining_sec then .warning
  else .critical

/-- The amended C1 classifier: identical to `colorBandOwnDuration` except the
thresholds come from the global constant `BASE_DURATION_SEC`. -/
def colorBandGlobalDuration (st : TimerState) : Band :=
  if st.is_finished then .muted
  else if 2 * BASE_DURATION_SEC / 3 < st.remaining_sec then .safe
  else if BASE_DURATION_SEC / 3 < st.remaining_sec then .warning
  else .critical

/-- Claim C2's description of `tick`: elapsed computed with `floor`
(rather than the source's truncation), subtract-and-clamp when positive,
untouched state otherwise. -/
def tickFloorSpec (st : TimerState) (now_ts : ℚ) : TimerState :=
  if !st.running then
    { st with last_wall_ts := now_ts }
  else
    let elapsed := ⌊now_ts - st.last_wall_ts⌋
    if 0 < elapsed then
      { st with remaining_sec := max 0 (st.remaining_sec - elapsed),
                last_wall_ts := now_ts }
    else st

/-! ## Basic facts about `pytrunc` -/

theorem pytrunc_zero : pytrunc 0 = 0 := by
  simp [pytrunc]

theorem pytrunc_pos_iff (q : ℚ) : 0 < pytrunc q ↔ 0 < ⌊q⌋ := by
  unfold pytrunc
  split
  · exact Iff.rfl
  · rename_i h
    push_neg at h
    constructor
    · intro hc
      have : ⌈q⌉ ≤ 0 := Int.ceil_le.mpr (by exact_mod_cast h.le)
      omega
    · intro hf
      have : (0 : ℚ) < q := by
        have := Int.floor_le q
        have h1 : (1 : ℚ) ≤ (⌊q⌋ : ℚ) := by exact_mod_cast hf
        linarith
      exact absurd this (not_lt.mpr h.le)

theorem pytrunc_eq_floor_of_pos (q : ℚ) (h : 0 < ⌊q⌋) : pytrunc q = ⌊q⌋ := by
  unfold pytrunc
  split
  · rfl
  · rename_i hq
    push_neg at hq
    have : (0 : ℚ) < q := by
      have := Int.floor_le q
      have h1 : (1 : ℚ) ≤ (⌊q⌋ : ℚ) := by exact_mod_cast h
      linarith
    exact absurd this (not_lt.mpr hq.le)

/-- C1 counterexample input: a timer whose own duration is 3 seconds with
3 seconds remaining. -/
def exC1 : TimerState :=
  ⟨"t", 3, 3, true, 0, "N/A", "Male"⟩

/-- C1 (counterexample): the claim's own-duration classifier calls `exC1`
safe (3 > (2*3)//3 = 2), but the code classifies it critical, because the
code's thresholds come from the global `BASE_DURATION_SEC`, not from the
Timer's own `initialDurationSec`. -/
theorem colorBand_not_own_duration :
    colorBandOwnDuration exC1 = Band.safe ∧
    exC1.color_for_remaining = Band.critical := by
  constructor <;> decide

/-- C1 (amended): `colorBand` classifies urgency relative to the global
constant `BASE_DURATION_SEC`: finished timers are muted; otherwise
remaining greater than two thirds of `BASE_DURATION_SEC` (integer
division) is safe, greater than one third is warning, and everything
else — boundary values included — is critical. -/
theorem colorBand_global_duration (st : TimerState) :
    st.color_for_remaining = colorBandGlobalDuration st := by
  unfold TimerState.color_for_remaining colorBandGlobalDuration TimerState.is_finished
  by_cases h0 : st.remaining_sec ≤ 0 <;> simp [h0]

/-- C2: `tick_wall` implements exactly the drift-correction algorithm of the
spec: not running ⇒ only `lastObservedTs := now`; otherwise with
`elapsed = ⌊now - lastObservedTs⌋`, a positive `elapsed` is subtracted from
`remainingSec` (clamped at 0) and `lastObservedTs := now`, while
`elapsed ≤ 0` leaves the state untouched.  (The source computes `elapsed`
with Python `int()`, i.e. truncation; on the branch that matters the two
agree, so the states coincide for every input.) -/
theorem tick_wall_eq_tickFloorSpec (st : TimerState) (now_ts : ℚ) :
    st.tick_wall now_ts = tickFloorSpec st now_ts := by
  unfold TimerState.tick_wall tickFloorSpec TimerState.clamp
  by_cases hr : st.running
  · by_cases hf : 0 < ⌊now_ts - st.last_wall_ts⌋
    · rw [pytrunc_eq_floor_of_pos _ hf]
    · have hp : ¬ 0 < pytrunc (now_ts - st.last_wall_ts) :=
        fun h => hf ((pytrunc_pos_iff _).mp h)
      simp [hr, hp, hf]
  · simp [hr]

/-! ## The collection: `TimerManager.items` as an ordered association list -/

/-- The `TimerManager.items` dict: an insertion-ordered list of
`name ↦ TimerState` entries (Python dicts preserve insertion order). -/
abbrev ItemMap := List (String × TimerState)

/-- Dict access `self.items[k]` as a total lookup: the value at the first entry whose
key is `k`, if any. -/
def lookup : ItemMap → String → Option TimerState
  | [], _ => none
  | e :: rest, k => if e.1 = k then some e.2 else lookup rest k

/-- Membership test `k in self.items`. -/
def containsKey (m : ItemMap) (k : String) : Bool :=
  m.any (fun e => e.1 == k)

/-- Dict assignment `self.items[k] = v` — update in place if the key is
present, otherwise append a new entry at the end. -/
def setItem : ItemMap → String → TimerState → ItemMap
  | [], k, v => [(k, v)]
  | e :: rest, k, v => if e.1 = k then (k, v) :: rest else e :: setItem rest k v

/-- Deletion `del self.items[k]` / the removal part of `self.items.pop(k)`:
drop the (first) entry with key `k`. -/
def eraseKey : ItemMap → String → ItemMap
  | [], _ => []
  | e :: rest, k => if e.1 = k then rest else e :: eraseKey rest k

/-- Embedding of `TimerManager.rename(old_name, new_name)`.  The result is `none` when
the method raises (`KeyError` from `self.items.pop(old_name)`), otherwise
`some (returned bool, items afterwards)`. -/
def rename (m : ItemMap) (old_name new_name : String) : Option (Bool × ItemMap) :=
  let new' := pyStrip new_name
  if new' = "" ∨ old_name = new' then some (false, m)
  else if containsKey m new' then some (false, m)
  else
    match lookup m old_name with
    | none => none
    | some st => some (true, setItem (eraseKey m old_name) new' { st with name := new' })

/-! ### Association-list lemmas -/

theorem containsKey_iff_lookup_isSome (m : ItemMap) (k : String) :
    containsKey m k = true ↔ (lookup m k).isSome := by
  induction m with
  | nil => simp [containsKey, lookup]
  | cons e rest ih =>
    by_cases h : e.1 = k
    · simp [containsKey, lookup, h]
    · simp [containsKey, lookup, h, ← ih, List.any_cons]

theorem lookup_setItem_self (m : ItemMap) (k : String) (v : TimerState) :
    lookup (setItem m k v) k = some v := by
  induction m with
  | nil => simp [setItem, lookup]
  | cons e rest ih =>
    by_cases h : e.1 = k
    · simp [setItem, lookup, h]
    · simp [setItem, lookup, h, ih]

theorem lookup_setItem_ne (m : ItemMap) (k k' : String) (v : TimerState)
    (h : k ≠ k') : lookup (setItem m k v) k' = lookup m k' := by
  induction m with
  | nil => simp [setItem, lookup, h]
  | cons e rest ih =>
    by_cases he : e.1 = k
    · simp [setItem, lookup, he, h]
    · by_cases he' : e.1 = k'
      · simp [setItem, lookup, he, he', Ne.symm h]
      · simp [setItem, lookup, he, he', ih]

theorem lookup_eraseKey_ne (m : ItemMap) (k k' : String) (h : k ≠ k') :
    lookup (eraseKey m k) k' = lookup m k' := by
  induction m with
  | nil => simp [eraseKey]
  | cons e rest ih =>
    by_cases he : e.1 = k
    · have : ¬ e.1 = k' := by rw [he]; exact h
      simp [eraseKey, lookup, he, this, h]
    · by_cases he' : e.1 = k'
      · simp [eraseKey, lookup, he, he', Ne.symm h]
      · simp [eraseKey, lookup, he, he', ih]

theorem eraseKey_sublist (m : ItemMap) (k : String) : (eraseKey m k).Sublist m := by
  induction m with
  | nil => simp [eraseKey]
  | cons e rest ih =>
    by_cases he : e.1 = k
    · simp only [eraseKey, if_pos he]
      exact List.sublist_cons_self e rest
    · simpa [eraseKey, he] using ih.cons₂ e

theorem lookup_eraseKey_self (m : ItemMap) (k : String)
    (hnd : (m.map Prod.fst).Nodup) : lookup (eraseKey m k) k = none := by
  induction m with
  | nil => simp [eraseKey, lookup]
  | cons e rest ih =>
    simp only [List.map_cons, List.nodup_cons] at hnd
    by_cases he : e.1 = k
    · rw [eraseKey, if_pos he]
      rcases h : lookup rest k with _ | v
      · rfl
      · exfalso
        have : (lookup rest k).isSome := by rw [h]; rfl
        have hk : containsKey rest k = true := (containsKey_iff_lookup_isSome rest k).mpr this
        have : k ∈ rest.map Prod.fst := by
          rcases List.any_eq_true.mp hk with ⟨a, ha, hbeq⟩
          exact List.mem_map.mpr ⟨a, ha, eq_of_beq hbeq⟩
        rw [← he] at this
        exact hnd.1 this
    · rw [eraseKey, if_neg he, lookup, if_neg he]
      exact ih hnd.2

/-- C3: when the collection contains `oldName`, `rename(oldName, newName)`
returns `false` and leaves the collection untouched exactly when the trimmed
`newName` is empty, or coincides with `oldName`, or is already a key; in
every other case it returns `true` (with some updated collection).  The
claim's three conditions are read, as in the source, on the trimmed new
name. -/
theorem rename_fails_iff (m : ItemMap) (old_name new_name : String)
    (h : containsKey m old_name = true) :
    (rename m old_name new_name = some (false, m) ↔
      (pyStrip new_name = "" ∨ old_name = pyStrip new_name ∨
        containsKey m (pyStrip new_name) = true)) ∧
    (¬ (pyStrip new_name = "" ∨ old_name = pyStrip new_name ∨
        containsKey m (pyStrip new_name) = true) →
      ∃ m', rename m old_name new_name = some (true, m')) := by
  have hlk : (lookup m old_name).isSome := (containsKey_iff_lookup_isSome m old_name).mp h
  constructor
  · constructor
    · intro hr
      by_contra hc
      push_neg at hc
      obtain ⟨h1, h2, h3⟩ := hc
      rcases hst : lookup m old_name with _ | st
      · rw [hst] at hlk; exact absurd hlk (by simp)
      · rw [rename, if_neg (by tauto), if_neg (by simp [h3]), hst] at hr
        simp at hr
    · intro hc
      rcases hc with h1 | h2 | h3
      · rw [rename, if_pos (Or.inl h1)]
      · rw [rename, if_pos (Or.inr h2)]
      · by_cases h12 : pyStrip new_name = "" ∨ old_name = pyStrip new_name
        · rw [rename, if_pos h12]
        · rw [rename, if_neg h12, if_pos h3]
  · intro hc
    push_neg at hc
    obtain ⟨h1, h2, h3⟩ := hc
    rcases hst : lookup m old_name with _ | st
    · rw [hst] at hlk; exact absurd hlk (by simp)
    · refine ⟨setItem (eraseKey m old_name) (pyStrip new_name)
        { st with name := pyStrip new_name }, ?_⟩
      rw [rename, if_neg (by tauto), if_neg (by simp [h3]), hst]

/-- A pair of concrete timers for witnesses. -/
def exA : TimerState := ⟨"A", 10, 5, true, 0, "N/A", "Male"⟩

def exB : TimerState := ⟨"B", 20, 0, false, 1, "N/A", "Female"⟩

/-- Witness for C3 at a concrete collection: `rename "A" → "B 2"` succeeds,
and the failure-iff holds there. -/
theorem rename_fails_iff_witness :
    containsKey [("A", exA), ("B", exB)] "A" = true ∧
    ((rename [("A", exA), ("B", exB)] "A" "B 2" = some (false, [("A", exA), ("B", exB)]) ↔
      (pyStrip "B 2" = "" ∨ "A" = pyStrip "B 2" ∨
        containsKey [("A", exA), ("B", exB)] (pyStrip "B 2") = true)) ∧
     (¬ (pyStrip "B 2" = "" ∨ "A" = pyStrip "B 2" ∨
        containsKey [("A", exA), ("B", exB)] (pyStrip "B 2") = true) →
       ∃ m', rename [("A", exA), ("B", exB)] "A" "B 2" = some (true, m'))) :=
  ⟨by decide, rename_fails_iff [("A", exA), ("B", exB)] "A" "B 2" (by decide)⟩

/-- C10: when the collection does *not* contain `oldName` and the new name
passes all three validation checks, `rename` raises (`KeyError` from
popping the absent key) instead of returning a boolean. -/
theorem rename_raises_of_absent_old (m : ItemMap) (old_name new_name : String)
    (h : containsKey m old_name = false)
    (h1 : pyStrip new_name ≠ "")
    (h2 : old_name ≠ pyStrip new_name)
    (h3 : containsKey m (pyStrip new_name) = false) :
    rename m old_name new_name = none := by
  have hlk : lookup m old_name = none := by
    rcases hst : lookup m old_name with _ | st
    · rfl
    · have : (lookup m old_name).isSome := by rw [hst]; rfl
      rw [(containsKey_iff_lookup_isSome m old_name).mpr this] at h
      cases h
  rw [rename, if_neg (by tauto), if_neg (by simp [h3]), hlk]

/-- Witness for C10: renaming the absent key `"Z"` in a one-timer
collection raises. -/
theorem rename_raises_of_absent_old_witness :
    containsKey [("A", exA)] "Z" = false ∧ pyStrip "B" ≠ "" ∧ "Z" ≠ pyStrip "B" ∧
    containsKey [("A", exA)] (pyStrip "B") = false ∧
    rename [("A", exA)] "Z" "B" = none :=
  ⟨by decide, by decide, by decide, by decide,
    rename_raises_of_absent_old [("A", exA)] "Z" "B"
      (by decide) (by decide) (by decide) (by decide)⟩

/-- C7: a successful `rename` changes only the key and the `name` field:
the renamed Timer is found under the trimmed new name with every other
field preserved bit-for-bit, the old key is gone, and every other key maps
to exactly what it mapped to before. -/
theorem rename_success_frame (m : ItemMap) (old_name new_name : String)
    (st : TimerState) (m' : ItemMap)
    (hnd : (m.map Prod.fst).Nodup)
    (hlk : lookup m old_name = some st)
    (hrn : rename m old_name new_name = some (true, m')) :
    lookup m' (pyStrip new_name) = some { st with name := pyStrip new_name } ∧
    lookup m' old_name = none ∧
    ∀ k, k ≠ old_name → k ≠ pyStrip new_name → lookup m' k = lookup m k := by
  by_cases h1 : pyStrip new_name = "" ∨ old_name = pyStrip new_name
  · rw [rename, if_pos h1] at hrn
    simp at hrn
  · by_cases h2 : containsKey m (pyStrip new_name)
    · rw [rename, if_neg h1, if_pos h2] at hrn
      simp at hrn
    · rw [rename, if_neg h1, if_neg h2, hlk] at hrn
      have hm' : m' = setItem (eraseKey m old_name) (pyStrip new_name)
          { st with name := pyStrip new_name } := by
        simpa using hrn.symm
      push_neg at h1
      refine ⟨?_, ?_, ?_⟩
      · rw [hm', lookup_setItem_self]
      · rw [hm', lookup_setItem_ne _ _ _ _ (Ne.symm h1.2),
          lookup_eraseKey_self m old_name hnd]
      · intro k hko hkn
        rw [hm', lookup_setItem_ne _ _ _ _ (Ne.symm hkn),
          lookup_eraseKey_ne _ _ _ (Ne.symm hko)]

/-- The collection `rename_success_frame_witness` runs on. -/
def exMap : ItemMap := [("A", exA), ("B", exB)]

/-- The collection after renaming `"A"` to `" C "` in `exMap`. -/
def exMapRenamed : ItemMap := [("B", exB), ("C", ⟨"C", 10, 5, true, 0, "N/A", "Male"⟩)]

/-- Witness for C7 at a concrete collection: renaming `"A"` to `" C "`
(trimmed to `"C"`) keeps every field of the Timer but its name, and leaves
`"B"` untouched. -/
theorem rename_success_frame_witness :
    (exMap.map Prod.fst).Nodup ∧ lookup exMap "A" = some exA ∧
    rename exMap "A" " C " = some (true, exMapRenamed) ∧
    (lookup exMapRenamed (pyStrip " C ") = some { exA with name := pyStrip " C " } ∧
     lookup exMapRenamed "A" = none ∧
     ∀ k, k ≠ "A" → k ≠ pyStrip " C " → lookup exMapRenamed k = lookup exMap k) :=
  ⟨by decide, by decide, by decide,
    rename_success_frame exMap "A" " C " exA exMapRenamed
      (by decide) (by decide) (by decide)⟩

/-! ## Batch ticking -/

/-- The body of the `TimerState(...)` constructor call in `TimerManager.add`:
`remaining_sec` starts at the duration, `running = True`, and the creation
timestamp becomes `last_wall_ts`. -/
def TimerState.make (name : String) (duration_sec : ℤ) (now : ℚ)
    (age_group gender : String) : TimerState :=
  ⟨name, duration_sec, duration_sec, true, now, age_group, gender⟩

/-- A sequence of `tick_wall` calls (what repeated `tick_all` calls do to
one owned Timer). -/
def runTicks (st : TimerState) (nows : List ℚ) : TimerState :=
  nows.foldl TimerState.tick_wall st

theorem tick_wall_initial_eq (st : TimerState) (now_ts : ℚ) :
    (st.tick_wall now_ts).initial_duration_sec = st.initial_duration_sec := by
  unfold TimerState.tick_wall TimerState.clamp
  by_cases hr : st.running
  · by_cases hp : 0 < pytrunc (now_ts - st.last_wall_ts) <;> simp [hr, hp]
  · simp [hr]

theorem tick_wall_remaining_bounds (st : TimerState) (now_ts : ℚ)
    (h : 0 ≤ st.remaining_sec) :
    0 ≤ (st.tick_wall now_ts).remaining_sec ∧
    (st.tick_wall now_ts).remaining_sec ≤ st.remaining_sec := by
  unfold TimerState.tick_wall TimerState.clamp
  by_cases hr : st.running
  · by_cases hp : 0 < pytrunc (now_ts - st.last_wall_ts)
    · simp only [hr, Bool.not_true, Bool.false_eq_true, if_false, hp, if_pos]
      refine ⟨le_max_left 0 _, max_le h (by omega)⟩
    · simp only [hr, Bool.not_true, Bool.false_eq_true, if_false, hp, if_neg,
        not_false_eq_true]
      exact ⟨h, le_refl _⟩
  · simp only [hr, Bool.not_false, if_pos]
    exact ⟨h, le_refl _⟩

theorem runTicks_initial_eq (nows : List ℚ) (st : TimerState) :
    (runTicks st nows).initial_duration_sec = st.initial_duration_sec := by
  induction nows generalizing st with
  | nil => rfl
  | cons n rest ih =>
    rw [runTicks, List.foldl_cons, ← runTicks, ih, tick_wall_initial_eq]

theorem runTicks_remaining_bounds (nows : List ℚ) (st : TimerState)
    (h : 0 ≤ st.remaining_sec) :
    0 ≤ (runTicks st nows).remaining_sec ∧
    (runTicks st nows).remaining_sec ≤ st.remaining_sec := by
  induction nows generalizing st with
  | nil => exact ⟨h, le_refl _⟩
  | cons n rest ih =>
    rw [runTicks, List.foldl_cons, ← runTicks]
    obtain ⟨h1, h2⟩ := tick_wall_remaining_bounds st n h
    obtain ⟨h3, h4⟩ := ih (st.tick_wall n) h1
    exact ⟨h3, le_trans h4 h2⟩

/-- C4: a Timer created by `add` with positive duration keeps
`0 ≤ remainingSec ≤ initialDurationSec` after every prefix of a
non-decreasing sequence of ticks, its duration never changes, and
`remainingSec` never increases along the sequence. -/
theorem timer_tick_invariant (nm ag gd : String) (d : ℤ) (t0 : ℚ)
    (hd : 0 < d) (l1 l2 : List ℚ) (hmono : (l1 ++ l2).Chain' (· ≤ ·)) :
    0 ≤ (runTicks (TimerState.make nm d t0 ag gd) (l1 ++ l2)).remaining_sec ∧
    (runTicks (TimerState.make nm d t0 ag gd) (l1 ++ l2)).remaining_sec ≤
      (runTicks (TimerState.make nm d t0 ag gd) (l1 ++ l2)).initial_duration_sec ∧
    (runTicks (TimerState.make nm d t0 ag gd) (l1 ++ l2)).initial_duration_sec = d ∧
    (runTicks (TimerState.make nm d t0 ag gd) (l1 ++ l2)).remaining_sec ≤
      (runTicks (TimerState.make nm d t0 ag gd) l1).remaining_sec := by
  have hsplit : runTicks (TimerState.make nm d t0 ag gd) (l1 ++ l2) =
      runTicks (runTicks (TimerState.make nm d t0 ag gd) l1) l2 := by
    unfold runTicks
    exact List.foldl_append _ _ _ _
  have hb1 := runTicks_remaining_bounds l1 (TimerState.make nm d t0 ag gd) hd.le
  have hb2 := runTicks_remaining_bounds l2 _ hb1.1
  have hinit : (runTicks (TimerState.make nm d t0 ag gd) (l1 ++ l2)).initial_duration_sec
      = d := runTicks_initial_eq _ _
  refine ⟨?_, ?_, hinit, ?_⟩
  · rw [hsplit]; exact hb2.1
  · rw [hinit, hsplit]
    exact le_trans hb2.2 (le_trans hb1.2 (le_refl d))
  · rw [hsplit]; exact hb2.2

/-- Witness for C4 at a concrete timer and tick sequence. -/
theorem timer_tick_invariant_witness :
    (0 : ℤ) < 10 ∧ ([(2 : ℚ), 4] ++ [7]).Chain' (· ≤ ·) ∧
    (0 ≤ (runTicks (TimerState.make "W" 10 0 "N/A" "Male") ([2, 4] ++ [7])).remaining_sec ∧
     (runTicks (TimerState.make "W" 10 0 "N/A" "Male") ([2, 4] ++ [7])).remaining_sec ≤
       (runTicks (TimerState.make "W" 10 0 "N/A" "Male") ([2, 4] ++ [7])).initial_duration_sec ∧
     (runTicks (TimerState.make "W" 10 0 "N/A" "Male") ([2, 4] ++ [7])).initial_duration_sec = 10 ∧
     (runTicks (TimerState.make "W" 10 0 "N/A" "Male") ([2, 4] ++ [7])).remaining_sec ≤
       (runTicks (TimerState.make "W" 10 0 "N/A" "Male") [2, 4]).remaining_sec) :=
  ⟨by decide, by simp [List.chain'_cons]; norm_num,
    timer_tick_invariant "W" "N/A" "Male" 10 0 (by decide) [2, 4] [7]
      (by simp [List.chain'_cons]; norm_num)⟩

/-- Embedding of `TimerManager.tick_all`, with `time.time()` passed in as `now`.
Returns the items afterwards, the `updated` emission (`any_change`) and the
`structure_changed` emission (`just_finished`). -/
def tick_all (m : ItemMap) (now : ℚ) : ItemMap × Bool × Bool :=
  (m.map (fun e => (e.1, e.2.tick_wall now)),
   m.any (fun e => decide ((e.2.tick_wall now).remaining_sec ≠ e.2.remaining_sec)),
   m.any (fun e => !e.2.is_finished && (e.2.tick_wall now).is_finished))

theorem zip_self_map {α β : Type _} (m : List α) (f : α → β) :
    m.zip (m.map f) = m.map (fun a => (a, f a)) := by
  induction m with
  | nil => rfl
  | cons a rest ih => simp [ih]

/-- A timer for which one `tick_all` call fires both notifications. -/
def exBoth : TimerState := ⟨"A", 10, 1, true, 0, "N/A", "Male"⟩

/-- C5: `tick_all` emits the value-changed notification iff some owned
Timer's `remainingSec` differs between the items before the call and the
items after it (paired positionally), emits the structural notification
iff some owned Timer went from not-finished to finished, and the two are
independent — a single call can fire both (witnessed by `exBoth`). -/
theorem tick_all_notifications (m : ItemMap) (now : ℚ) :
    ((tick_all m now).2.1 = true ↔
      ∃ p ∈ m.zip (tick_all m now).1, p.2.2.remaining_sec ≠ p.1.2.remaining_sec) ∧
    ((tick_all m now).2.2 = true ↔
      ∃ p ∈ m.zip (tick_all m now).1,
        p.1.2.is_finished = false ∧ p.2.2.is_finished = true) ∧
    ((tick_all [("X", exBoth)] 5).2.1 = true ∧
     (tick_all [("X", exBoth)] 5).2.2 = true) := by
  have hz : m.zip (tick_all m now).1 =
      m.map (fun e => (e, (e.1, e.2.tick_wall now))) := by
    unfold tick_all
    exact zip_self_map m _
  refine ⟨?_, ?_, by
    norm_num [tick_all, TimerState.tick_wall, pytrunc, TimerState.clamp,
      TimerState.is_finished, exBoth]⟩
  · rw [hz]
    unfold tick_all
    simp only [List.any_eq_true, List.mem_map]
    constructor
    · rintro ⟨e, he, hcond⟩
      exact ⟨(e, (e.1, e.2.tick_wall now)), ⟨e, he, rfl⟩, by simpa using hcond⟩
    · rintro ⟨p, ⟨e, he, rfl⟩, hcond⟩
      exact ⟨e, he, by simpa using hcond⟩
  · rw [hz]
    unfold tick_all
    simp only [List.any_eq_true, List.mem_map]
    constructor
    · rintro ⟨e, he, hcond⟩
      rw [Bool.and_eq_true, Bool.not_eq_true'] at hcond
      exact ⟨(e, (e.1, e.2.tick_wall now)), ⟨e, he, rfl⟩, hcond.1, hcond.2⟩
    · rintro ⟨p, ⟨e, he, rfl⟩, hcond⟩
      exact ⟨e, he, by rw [Bool.and_eq_true, Bool.not_eq_true']; exact hcond⟩

/-! ## `clear_finished` -/

/-- Embedding of `TimerManager.clear_finished`: collect the keys of finished timers,
delete each, and emit `structure_changed` once iff any were deleted. -/
def clear_finished (m : ItemMap) : ItemMap × Bool :=
  let finished_keys := (m.filter (fun e => e.2.is_finished)).map Prod.fst
  if finished_keys.isEmpty then (m, false)
  else (finished_keys.foldl eraseKey m, true)

theorem mem_eraseKey (m : ItemMap) (k : String) (e : String × TimerState)
    (hnd : (m.map Prod.fst).Nodup) :
    e ∈ eraseKey m k ↔ e ∈ m ∧ e.1 ≠ k := by
  induction m with
  | nil => simp [eraseKey]
  | cons a rest ih =>
    simp only [List.map_cons, List.nodup_cons] at hnd
    by_cases ha : a.1 = k
    · rw [eraseKey, if_pos ha]
      constructor
      · intro he
        refine ⟨List.mem_cons_of_mem a he, ?_⟩
        intro hek
        exact hnd.1 (ha ▸ hek ▸ List.mem_map.mpr ⟨e, he, rfl⟩)
      · rintro ⟨he, hek⟩
        rcases List.mem_cons.mp he with rfl | he
        · exact absurd ha hek
        · exact he
    · rw [eraseKey, if_neg ha]
      constructor
      · intro he
        rcases List.mem_cons.mp he with rfl | he
        · exact ⟨List.mem_cons_self e rest, ha⟩
        · obtain ⟨h1, h2⟩ := (ih hnd.2).mp he
          exact ⟨List.mem_cons_of_mem a h1, h2⟩
      · rintro ⟨he, hek⟩
        rcases List.mem_cons.mp he with rfl | he
        · exact List.mem_cons_self e _
        · exact List.mem_cons_of_mem a ((ih hnd.2).mpr ⟨he, hek⟩)

theorem eraseKey_nodup (m : ItemMap) (k : String)
    (hnd : (m.map Prod.fst).Nodup) : ((eraseKey m k).map Prod.fst).Nodup :=
  hnd.sublist ((eraseKey_sublist m k).map Prod.fst)

theorem mem_foldl_eraseKey (ks : List String) (m : ItemMap)
    (e : String × TimerState) (hnd : (m.map Prod.fst).Nodup) :
    e ∈ ks.foldl eraseKey m ↔ e ∈ m ∧ e.1 ∉ ks := by
  induction ks generalizing m with
  | nil => simp
  | cons k rest ih =>
    rw [List.foldl_cons, ih (eraseKey m k) (eraseKey_nodup m k hnd)]
    rw [mem_eraseKey m k e hnd]
    simp only [List.mem_cons]
    tauto

theorem eq_of_key_eq (m : ItemMap) (hnd : (m.map Prod.fst).Nodup)
    (e e' : String × TimerState) (he : e ∈ m) (he' : e' ∈ m)
    (hk : e.1 = e'.1) : e = e' := by
  induction m with
  | nil => cases he
  | cons a rest ih =>
    simp only [List.map_cons, List.nodup_cons] at hnd
    rcases List.mem_cons.mp he with h1 | h1
    · rcases List.mem_cons.mp he' with h2 | h2
      · rw [h1, h2]
      · exact absurd (List.mem_map.mpr ⟨e', h2, (h1 ▸ hk).symm⟩) hnd.1
    · rcases List.mem_cons.mp he' with h2 | h2
      · exact absurd (List.mem_map.mpr ⟨e, h1, h2 ▸ hk⟩) hnd.1
      · exact ih hnd.2 h1 h2

/-- C8: `clear_finished` removes exactly the timers that are finished at
call time and no others, and the single structural notification fires iff
at least one timer was finished (hence removed). -/
theorem clear_finished_exact (m : ItemMap) (hnd : (m.map Prod.fst).Nodup) :
    (∀ e, e ∈ (clear_finished m).1 ↔ e ∈ m ∧ e.2.is_finished = false) ∧
    ((clear_finished m).2 = true ↔ ∃ e ∈ m, e.2.is_finished = true) := by
  by_cases hemp : ((m.filter (fun e => e.2.is_finished)).map Prod.fst).isEmpty
  · rw [List.isEmpty_iff, List.map_eq_nil_iff, List.filter_eq_nil_iff] at hemp
    unfold clear_finished
    rw [if_pos (by
      rw [List.isEmpty_iff, List.map_eq_nil_iff, List.filter_eq_nil_iff]
      exact hemp)]
    constructor
    · intro e
      constructor
      · intro he
        exact ⟨he, Bool.not_eq_true _ ▸ hemp e he⟩
      · exact fun h => h.1
    · simp only [Bool.false_eq_true, false_iff]
      rintro ⟨e, he, hf⟩
      exact hemp e he hf
  · unfold clear_finished
    rw [if_neg hemp]
    constructor
    · intro e
      rw [mem_foldl_eraseKey _ m e hnd]
      constructor
      · rintro ⟨he, hks⟩
        refine ⟨he, ?_⟩
        by_contra hf
        rw [Bool.not_eq_false] at hf
        exact hks (List.mem_map.mpr ⟨e, List.mem_filter.mpr ⟨he, hf⟩, rfl⟩)
      · rintro ⟨he, hf⟩
        refine ⟨he, ?_⟩
        intro hks
        obtain ⟨e', he', hk⟩ := List.mem_map.mp hks
        have he'm : e' ∈ m := (List.mem_filter.mp he').1
        have : e' = e := eq_of_key_eq m hnd e' e he'm he hk
        rw [this] at he'
        rw [(List.mem_filter.mp he').2] at hf
        cases hf
    · simp only [true_iff]
      rw [List.isEmpty_iff] at hemp
      obtain ⟨k, hk⟩ := List.exists_mem_of_ne_nil _ hemp
      obtain ⟨e, he, -⟩ := List.mem_map.mp hk
      obtain ⟨hem, hef⟩ := List.mem_filter.mp he
      exact ⟨e, hem, hef⟩

/-- Witness for C8: in a two-timer collection with one finished timer,
exactly the finished one is removed, and the notification fires. -/
theorem clear_finished_exact_witness :
    (exMap.map Prod.fst).Nodup ∧
    ((∀ e, e ∈ (clear_finished exMap).1 ↔ e ∈ exMap ∧ e.2.is_finished = false) ∧
     ((clear_finished exMap).2 = true ↔ ∃ e ∈ exMap, e.2.is_finished = true)) :=
  ⟨by decide, clear_finished_exact exMap (by decide)⟩

/-! ## `unique_name` and `add`

`TimerManager.unique_name` probes `base`, `f"{base} 2"`, `f"{base} 3"`, …
until a string absent from the key set is found.  The source loop carries
no fuel; here it gets fuel `|items| + 1`, which the pigeonhole argument
below shows is always enough, so the embedding computes the same name the
Python loop does. -/

/-- The numeric value of a decimal digit character. -/
def digitVal (c : Char) : Nat := c.toNat - 48

/-- Parse a decimal digit string (the left inverse used to show that
`Nat.repr` — Python's `str(i)` — is injective). -/
def parseDec (cs : List Char) : Nat :=
  cs.foldl (fun a c => a * 10 + digitVal c) 0

theorem toDigitsCore_append (fuel : Nat) : ∀ (n : Nat) (ds : List Char),
    Nat.toDigitsCore 10 fuel n ds = Nat.toDigitsCore 10 fuel n [] ++ ds := by
  induction fuel with
  | zero => intro n ds; simp [Nat.toDigitsCore]
  | succ f ih =>
    intro n ds
    simp only [Nat.toDigitsCore]
    by_cases h : n / 10 = 0
    · simp [h]
    · simp only [h, if_neg, Bool.false_eq_true, not_false_eq_true]
      rw [ih (n / 10) (Nat.digitChar (n % 10) :: ds),
        ih (n / 10) [Nat.digitChar (n % 10)], List.append_assoc]
      rfl

theorem digitVal_digitChar : ∀ k, k < 10 → digitVal (Nat.digitChar k) = k := by
  decide

theorem length_toDigitsCore_ge (fuel : Nat) : ∀ (n : Nat) (ds : List Char),
    ds.length ≤ (Nat.toDigitsCore 10 fuel n ds).length := by
  induction fuel with
  | zero => intro n ds; simp [Nat.toDigitsCore]
  | succ f ih =>
    intro n ds
    simp only [Nat.toDigitsCore]
    by_cases h : n / 10 = 0
    · simp [h]
    · simp only [h, if_neg, Bool.false_eq_true, not_false_eq_true]
      calc ds.length ≤ (Nat.digitChar (n % 10) :: ds).length := by simp
        _ ≤ _ := ih (n / 10) _

theorem toDigits_ne_nil (n : Nat) : Nat.toDigits 10 n ≠ [] := by
  unfold Nat.toDigits
  simp only [Nat.toDigitsCore]
  by_cases h : n / 10 = 0
  · simp [h]
  · simp only [h, if_neg, Bool.false_eq_true, not_false_eq_true]
    intro hc
    have := length_toDigitsCore_ge n (n / 10) [Nat.digitChar (n % 10)]
    rw [hc] at this
    simp at this

theorem parseDec_toDigitsCore (n : Nat) : ∀ fuel, n < fuel →
    parseDec (Nat.toDigitsCore 10 fuel n []) = n := by
  induction n using Nat.strong_induction_on with
  | _ n ih =>
    intro fuel hf
    match fuel, hf with
    | f + 1, hf =>
      simp only [Nat.toDigitsCore]
      by_cases h : n / 10 = 0
      · have hn : n < 10 := by omega
        simp only [h, if_pos]
        unfold parseDec
        simp only [List.foldl_cons, List.foldl_nil, Nat.zero_mul, Nat.zero_add]
        rw [digitVal_digitChar (n % 10) (Nat.mod_lt n (by omega))]
        omega
      · simp only [h, if_neg, Bool.false_eq_true, not_false_eq_true]
        rw [toDigitsCore_append f (n / 10) [Nat.digitChar (n % 10)]]
        unfold parseDec
        rw [List.foldl_append]
        have hlt : n / 10 < n := Nat.div_lt_self (by omega) (by omega)
        have hfu : n / 10 < f := by omega
        have hrec := ih (n / 10) hlt f hfu
        unfold parseDec at hrec
        rw [hrec]
        simp only [List.foldl_cons, List.foldl_nil]
        rw [digitVal_digitChar (n % 10) (Nat.mod_lt n (by omega))]
        omega

/-- Decimal printing `Nat.repr` (Python `str(i)`) is injective. -/
theorem repr_inj (a b : Nat) (h : Nat.repr a = Nat.repr b) : a = b := by
  have hd : Nat.toDigits 10 a = Nat.toDigits 10 b := congrArg String.data h
  have ha := parseDec_toDigitsCore a (a + 1) (Nat.lt_succ_self a)
  have hb := parseDec_toDigitsCore b (b + 1) (Nat.lt_succ_self b)
  unfold Nat.toDigits at hd
  rw [← ha, ← hb, hd]

theorem string_data_append (s t : String) : (s ++ t).data = s.data ++ t.data := by
  cases s
  cases t
  rfl

/-- The candidate probed at step `j` of the `unique_name` loop:
the (stripped) base itself, then `f"{base} {i}"` for `i = 2, 3, …`. -/
def candidate (b : String) : Nat → String
  | 0 => b
  | j + 1 => b ++ " " ++ Nat.repr (j + 2)

theorem candidate_inj (b : String) : Function.Injective (candidate b) := by
  intro x y h
  match x, y with
  | 0, 0 => rfl
  | 0, j + 1 =>
    exfalso
    have hlen := congrArg (fun s : String => s.data.length) h
    simp only [candidate, string_data_append] at hlen
    have := toDigits_ne_nil (j + 2)
    have h1 : 1 ≤ (Nat.repr (j + 2)).data.length := by
      rcases hnil : (Nat.repr (j + 2)).data with _ | ⟨c, cs⟩
      · exact absurd hnil this
      · simp
    simp only [List.length_append] at hlen
    have h2 : (" " : String).data.length = 1 := rfl
    omega
  | j + 1, 0 =>
    exfalso
    have hlen := congrArg (fun s : String => s.data.length) h
    simp only [candidate, string_data_append] at hlen
    have := toDigits_ne_nil (j + 2)
    have h1 : 1 ≤ (Nat.repr (j + 2)).data.length := by
      rcases hnil : (Nat.repr (j + 2)).data with _ | ⟨c, cs⟩
      · exact absurd hnil this
      · simp
    simp only [List.length_append] at hlen
    have h2 : (" " : String).data.length = 1 := rfl
    omega
  | j + 1, k + 1 =>
    have hdata := congrArg String.data h
    simp only [candidate, string_data_append, List.append_assoc] at hdata
    have hrepr : (Nat.repr (j + 2)).data = (Nat.repr (k + 2)).data :=
      List.append_cancel_left (List.append_cancel_left hdata)
    have : j + 2 = k + 2 := by
      have ha := parseDec_toDigitsCore (j + 2) (j + 3) (Nat.lt_succ_self _)
      have hb := parseDec_toDigitsCore (k + 2) (k + 3) (Nat.lt_succ_self _)
      unfold Nat.toDigits at ha hb
      have : parseDec (Nat.repr (j + 2)).data = parseDec (Nat.repr (k + 2)).data :=
        congrArg parseDec hrepr
      rwa [show (Nat.repr (j + 2)).data = Nat.toDigitsCore 10 (j + 3) (j + 2) [] from rfl,
        show (Nat.repr (k + 2)).data = Nat.toDigitsCore 10 (k + 3) (k + 2) [] from rfl,
        ha, hb] at this
    omega

/-- The `while candidate in self.items` loop of `unique_name`, with fuel. -/
def uniqueNameGo (keys : List String) (b : String) : Nat → Nat → String
  | j, 0 => candidate b j
  | j, fuel + 1 =>
    if candidate b j ∈ keys then uniqueNameGo keys b (j + 1) fuel
    else candidate b j

theorem uniqueNameGo_not_mem (keys : List String) (b : String) :
    ∀ fuel j, (∃ t, t < fuel ∧ candidate b (j + t) ∉ keys) →
      uniqueNameGo keys b j fuel ∉ keys := by
  intro fuel
  induction fuel with
  | zero =>
    rintro j ⟨t, ht, -⟩
    omega
  | succ f ih =>
    rintro j ⟨t, ht, hfree⟩
    rw [uniqueNameGo]
    by_cases hj : candidate b j ∈ keys
    · rw [if_pos hj]
      apply ih
      match t with
      | 0 => exact absurd (by simpa using hj) (by simpa using hfree)
      | t' + 1 =>
        refine ⟨t', by omega, ?_⟩
        have : j + 1 + t' = j + (t' + 1) := by omega
        rwa [this]
    · rw [if_neg hj]
      exact hj

theorem exists_free_candidate (keys : List String) (b : String) :
    ∃ t, t ≤ keys.length ∧ candidate b t ∉ keys := by
  by_contra hc
  push_neg at hc
  have hsub : ((List.range (keys.length + 1)).map (candidate b)) ⊆ keys := by
    intro x hx
    obtain ⟨t, ht, rfl⟩ := List.mem_map.mp hx
    rw [List.mem_range] at ht
    exact hc t (by omega)
  have hnd : ((List.range (keys.length + 1)).map (candidate b)).Nodup :=
    (List.nodup_range _).map (candidate_inj b)
  have hle := (hnd.subperm hsub).length_le
  simp only [List.length_map, List.length_range] at hle
  omega

/-- Embedding of `TimerManager.unique_name(base)`. -/
def unique_name (m : ItemMap) (base : String) : String :=
  let b := if pyStrip base = "" then "Timer" else pyStrip base
  uniqueNameGo (m.map Prod.fst) b 0 (m.length + 1)

/-- Embedding of `TimerManager.add(name, duration_sec, age_group, gender)` with the
creation timestamp `time.time()` passed in as `now`; the `Bool` is the
`structure_changed` emission (always fired). -/
def add (m : ItemMap) (name : String) (duration_sec : ℤ) (now : ℚ)
    (age_group gender : String) : ItemMap × Bool :=
  let nm := unique_name m name
  (setItem m nm (TimerState.make nm duration_sec now age_group gender), true)

theorem containsKey_iff_mem_keys (m : ItemMap) (k : String) :
    containsKey m k = true ↔ k ∈ m.map Prod.fst := by
  unfold containsKey
  rw [List.any_eq_true]
  constructor
  · rintro ⟨e, he, hbe⟩
    exact List.mem_map.mpr ⟨e, he, eq_of_beq hbe⟩
  · intro hk
    obtain ⟨e, he, hek⟩ := List.mem_map.mp hk
    exact ⟨e, he, beq_iff_eq.mpr hek⟩

/-- C9: `unique_name` always terminates with a name absent from the
collection (probing `base`, `base 2`, `base 3`, …, with a blank-after-strip
base replaced by the placeholder `"Timer"`), and in particular the second
`add("Timer")` into a collection already holding `"Timer"` stores the new
Timer under `"Timer 2"`. -/
theorem unique_name_spec :
    (∀ (m : ItemMap) (base : String), containsKey m (unique_name m base) = false) ∧
    unique_name [("Timer", exA)] "Timer" = "Timer 2" ∧
    unique_name [] "   " = "Timer" ∧
    lookup (add (add [] "Timer" 10 0 "N/A" "Male").1 "Timer" 10 0 "N/A" "Male").1
      "Timer 2" = some (TimerState.make "Timer 2" 10 0 "N/A" "Male") := by
  refine ⟨?_, by decide, by decide, by decide⟩
  intro m base
  obtain ⟨t, ht, hfree⟩ :=
    exists_free_candidate (m.map Prod.fst)
      (if pyStrip base = "" then "Timer" else pyStrip base)
  have hlen : (m.map Prod.fst).length = m.length := List.length_map _ _
  have hmem : uniqueNameGo (m.map Prod.fst)
      (if pyStrip base = "" then "Timer" else pyStrip base) 0 (m.length + 1) ∉
      m.map Prod.fst := by
    apply uniqueNameGo_not_mem
    exact ⟨t, by omega, by simpa using hfree⟩
  rw [← Bool.not_eq_true]
  intro hc
  exact hmem ((containsKey_iff_mem_keys m _).mp hc)

/-- C6: ticking twice with the same `now` is idempotent — the second
`tick_wall` with an identical timestamp changes nothing in the Timer's
state. -/
theorem tick_wall_idempotent (st : TimerState) (now_ts : ℚ) :
    (st.tick_wall now_ts).tick_wall now_ts = st.tick_wall now_ts := by
  unfold TimerState.tick_wall
  by_cases hr : st.running
  · by_cases hp : 0 < pytrunc (now_ts - st.last_wall_ts)
    · simp [TimerState.clamp, hr, hp, pytrunc_zero]
    · simp [hp, hr]
  · simp [hr, TimerState.clamp]
